import Mathlib

/-!
# librbd/cache/rwl/Types.cc

A shallow embedding of the entry-format and extent-algebra layer of the
replicated write log cache (`src/librbd/cache/rwl/Types.cc`), followed by the
properties established about it.

`uint64_t` values are natural numbers; every arithmetic operation the C++
performs on them is reduced modulo `2 ^ 64` explicitly.
-/

namespace librbd.cache.rwl

/-! ## Machine arithmetic -/

/-- The number of values of a `uint64_t`. -/
def UINT64_MOD : Nat := 18446744073709551616

/-- The C++ `a + b` on `uint64_t` operands. -/
def add64 (a b : Nat) : Nat := (a + b) % UINT64_MOD

/-- The C++ `a - b` on `uint64_t` operands (wraps around below zero). -/
def sub64 (a b : Nat) : Nat := (a % UINT64_MOD + (UINT64_MOD - b % UINT64_MOD)) % UINT64_MOD

/-! ## Data model -/

/-- Modelled from the spec: the `BlockExtent` type is declared in `Types.h`, which
is absent; the spec gives it as a closed interval `[first_block, last_block]`
built by `BlockExtent(first, last)`. -/
structure BlockExtent where
  first_block : Nat
  last_block : Nat
deriving DecidableEq, Repr

/-- Modelled from the spec: the `WriteLogPmemEntry` record is declared in
`Types.h`, which is absent; its fields are those the spec lists and that
`operator<<` in `Types.cc` prints, in that order. -/
structure WriteLogPmemEntry where
  entry_valid : Bool
  sync_point : Bool
  sequenced : Bool
  has_data : Bool
  discard : Bool
  writesame : Bool
  sync_gen_number : Nat
  write_sequence_number : Nat
  image_offset_bytes : Nat
  write_bytes : Nat
  ws_datalen : Nat
  entry_index : Nat
deriving DecidableEq, Repr

/-! ## Extent conversion (`Types.cc` lines 38-46) -/

/-- The free function `block_extent(offset_bytes, length_bytes)`:
`BlockExtent(offset_bytes, offset_bytes + length_bytes - 1)`. -/
def block_extent (offset_bytes length_bytes : Nat) : BlockExtent :=
  BlockExtent.mk offset_bytes (sub64 (add64 offset_bytes length_bytes) 1)

namespace WriteLogPmemEntry

/-- The accessor `WriteLogPmemEntry::get_offset_bytes`. -/
def get_offset_bytes (e : WriteLogPmemEntry) : Nat := e.image_offset_bytes

/-- The accessor `WriteLogPmemEntry::get_write_bytes`. -/
def get_write_bytes (e : WriteLogPmemEntry) : Nat := e.write_bytes

/-- The member `WriteLogPmemEntry::block_extent`. -/
def block_extent (e : WriteLogPmemEntry) : BlockExtent :=
  librbd.cache.rwl.block_extent e.image_offset_bytes e.write_bytes

/-! ## Classification predicates (`Types.cc` lines 48-68) -/

/-- The member `WriteLogPmemEntry::is_sync_point`. -/
def is_sync_point (e : WriteLogPmemEntry) : Bool := e.sync_point

/-- The member `WriteLogPmemEntry::is_discard`. -/
def is_discard (e : WriteLogPmemEntry) : Bool := e.discard

/-- The member `WriteLogPmemEntry::is_writesame`. -/
def is_writesame (e : WriteLogPmemEntry) : Bool := e.writesame

/-- The member `WriteLogPmemEntry::is_write`: the log entry is a basic write. -/
def is_write (e : WriteLogPmemEntry) : Bool :=
  !e.is_sync_point && !e.is_discard && !e.is_writesame

/-- The member `WriteLogPmemEntry::is_writer`: the log entry is any type that
writes data. -/
def is_writer (e : WriteLogPmemEntry) : Bool :=
  e.is_write || e.is_discard || e.is_writesame

end WriteLogPmemEntry

/-- How many of the given answers are `true`. -/
def countTrue (bs : List Bool) : Nat := (bs.filter id).length

/-- The four operation-kind answers of an entry, in the order
`is_write, is_sync_point, is_discard, is_writesame`. -/
def classification (e : WriteLogPmemEntry) : List Bool :=
  [e.is_write, e.is_sync_point, e.is_discard, e.is_writesame]

/-- How many of the `sync_point`, `discard`, `writesame` flags are set. -/
def kindFlagsSet (e : WriteLogPmemEntry) : Nat :=
  countTrue [e.sync_point, e.discard, e.writesame]

/-- The entry with the `sync_point` and `discard` flags set and every other field
clear or zero. -/
def entry_sync_point_and_discard : WriteLogPmemEntry :=
  { entry_valid := false, sync_point := true, sequenced := false, has_data := false,
    discard := true, writesame := false, sync_gen_number := 0,
    write_sequence_number := 0, image_offset_bytes := 0, write_bytes := 0,
    ws_datalen := 0, entry_index := 0 }

/-- The entry with only the `discard` flag set and every other field clear or
zero. -/
def entry_discard_only : WriteLogPmemEntry :=
  { entry_sync_point_and_discard with sync_point := false }

/-! ## Extent summary (`Types.cc` lines 95-118) -/

/-- An image extent: `first` is the offset in bytes, `second` the length in bytes
(the element type of the `ExtentsType` container). -/
abbrev Extent := Nat × Nat

/-- The three members the `ExtentsSummary` constructor assigns. -/
structure ExtentsSummary where
  total_bytes : Nat
  first_image_byte : Nat
  last_image_byte : Nat
deriving DecidableEq, Repr

/-- One iteration of the `for (auto &extent : extents)` loop of the constructor:
zero length extents are skipped, any other one adds to `total_bytes`, lowers
`first_image_byte` and raises `last_image_byte`. -/
def ExtentsSummary.loop_body (s : ExtentsSummary) (extent : Extent) : rwl.ExtentsSummary :=
  if extent.2 ≠ 0 then
    let s1 := { s with total_bytes := add64 s.total_bytes extent.2 }
    let s2 := if extent.1 < s1.first_image_byte then
      { s1 with first_image_byte := extent.1 } else s1
    if add64 extent.1 extent.2 > s2.last_image_byte then
      { s2 with last_image_byte := add64 extent.1 extent.2 } else s2
  else s

/-- The constructor `ExtentsSummary<ExtentsType>::ExtentsSummary(extents)`. -/
def ExtentsSummary.ExtentsSummary (extents : List Extent) : rwl.ExtentsSummary :=
  let s0 : rwl.ExtentsSummary := { total_bytes := 0, first_image_byte := 0, last_image_byte := 0 }
  match extents with
  | [] => s0
  | front :: _ =>
    let s1 := { s0 with first_image_byte := front.1 }
    let s2 := { s1 with last_image_byte := add64 s1.first_image_byte front.2 }
    extents.foldl ExtentsSummary.loop_body s2

/-- The elements of non-zero length, in their order. -/
def nonzero_extents (extents : List Extent) : List Extent :=
  extents.filter (fun e => e.2 != 0)

/-- The offsets of the elements of non-zero length. -/
def nonzero_offsets (extents : List Extent) : List Nat :=
  (nonzero_extents extents).map (fun e => e.1)

/-- The ends `offset + length` (64-bit unsigned) of the elements of non-zero
length. -/
def nonzero_ends (extents : List Extent) : List Nat :=
  (nonzero_extents extents).map (fun e => add64 e.1 e.2)

/-- The value `m` is the minimum of the list `l`: it occurs in `l` and nothing in
`l` is below it. -/
def IsMinOf (m : Nat) (l : List Nat) : Prop := m ∈ l ∧ ∀ x ∈ l, m ≤ x

/-- The value `m` is the maximum of the list `l`: it occurs in `l` and nothing in
`l` is above it. -/
def IsMaxOf (m : Nat) (l : List Nat) : Prop := m ∈ l ∧ ∀ x ∈ l, x ≤ m

instance (m : Nat) (l : List Nat) : Decidable (IsMinOf m l) := by
  unfold IsMinOf; infer_instance

instance (m : Nat) (l : List Nat) : Decidable (IsMaxOf m l) := by
  unfold IsMaxOf; infer_instance

/-! ## Deferred completion queue (`Types.cc` lines 20-26) -/

/-- Modelled from the spec: the `Context` class is declared in `include/Context.h`,
which is absent; the spec gives a completion action as a capability to be
invoked with a status code. An action is identified by a number (its pointer
value). -/
abbrev Context := Nat

/-- One invocation of a completion action: the action and the status code it was
completed with. -/
abbrev Invocation := Context × Int

/-- Modelled from the spec: `Context::complete(r)` is declared in
`include/Context.h`, which is absent; invoking an action with a status code is
recorded at the end of the log of invocations made so far. -/
def complete (log : List Invocation) (c : Context) (r : Int) : List Invocation :=
  log ++ [(c, r)]

/-- Modelled from the spec: `finish_contexts(cct, finished, result)` is defined in
`include/Context.h`, which is absent; the spec has every stored action invoked,
in insertion order, with the given status code. The first argument (a logging
handle, `nullptr` at the call in `Types.cc`) plays no part. -/
def finish_contexts (_cct : Option Nat) (finished : List Context) (result : Int)
    (log : List Invocation) : List Invocation :=
  finished.foldl (fun acc c => complete acc c result) log

/-- The queue `DeferredContexts`: its only member is the vector `contexts`. -/
structure DeferredContexts where
  contexts : List Context
deriving DecidableEq, Repr

/-- A freshly constructed queue: the vector is empty. -/
def DeferredContexts.empty : DeferredContexts := { contexts := [] }

/-- The member `DeferredContexts::add`: `contexts.push_back(ctx)`. -/
def DeferredContexts.add (d : DeferredContexts) (ctx : Context) : DeferredContexts :=
  { contexts := d.contexts ++ [ctx] }

/-- The destructor of `DeferredContexts`: `finish_contexts(nullptr, contexts, 0)`.
The result is the log of invocations it makes, starting from an empty log. -/
def DeferredContexts.destructor (d : DeferredContexts) : List Invocation :=
  finish_contexts none d.contexts 0 []

/-! ## Extent conversion: properties -/

/-- C1: for `length_bytes >= 1`, `block_extent offset_bytes length_bytes` has first
component `offset_bytes` and last component `offset_bytes + length_bytes - 1`
reduced modulo `2 ^ 64` (the 64-bit unsigned value of that expression); when
the exact value fits in 64 bits the last component is exactly that value. -/
theorem block_extent_spec (offset_bytes length_bytes : Nat) (hlen : 1 ≤ length_bytes) :
    block_extent offset_bytes length_bytes
        = BlockExtent.mk offset_bytes ((offset_bytes + length_bytes - 1) % 2 ^ 64)
      ∧ (offset_bytes + length_bytes - 1 < 2 ^ 64 →
          (block_extent offset_bytes length_bytes).last_block
            = offset_bytes + length_bytes - 1) := by
  have key : sub64 (add64 offset_bytes length_bytes) 1
      = (offset_bytes + length_bytes - 1) % 18446744073709551616 := by
    unfold sub64 add64 UINT64_MOD
    omega
  refine ⟨?_, ?_⟩
  · simp only [block_extent, key]
    norm_num
  · intro hfit
    simp only [block_extent, key]
    norm_num at hfit
    omega

/-- Witness for `block_extent_spec` at offset `4096`, length `512`. -/
theorem block_extent_spec_witness :
    1 ≤ 512
      ∧ block_extent 4096 512 = BlockExtent.mk 4096 ((4096 + 512 - 1) % 2 ^ 64)
      ∧ (block_extent 4096 512).last_block = 4096 + 512 - 1 :=
  ⟨by decide, (block_extent_spec 4096 512 (by decide)).1,
    (block_extent_spec 4096 512 (by decide)).2 (by norm_num)⟩

/-- C2: round trip. For 64-bit `offset` and 64-bit `length >= 1`, mapping the block
extent `(first, last)` of `(offset, length)` back by `(first, last - first + 1)`,
in 64-bit unsigned arithmetic, gives `(offset, length)` again. -/
theorem block_extent_round_trip (offset length : Nat)
    (hoff : offset < 2 ^ 64) (hlt : length < 2 ^ 64) (hlen : 1 ≤ length) :
    ((block_extent offset length).first_block,
      add64 (sub64 (block_extent offset length).last_block
        (block_extent offset length).first_block) 1) = (offset, length) := by
  norm_num at hoff hlt
  simp only [block_extent, Prod.mk.injEq, true_and]
  unfold sub64 add64 UINT64_MOD
  omega

/-- Witness for `block_extent_round_trip` at an offset and a length whose sum
overflows 64 bits. -/
theorem block_extent_round_trip_witness :
    18446744073709551615 < 2 ^ 64 ∧ 7 < 2 ^ 64 ∧ 1 ≤ 7
      ∧ ((block_extent 18446744073709551615 7).first_block,
          add64 (sub64 (block_extent 18446744073709551615 7).last_block
            (block_extent 18446744073709551615 7).first_block) 1)
        = (18446744073709551615, 7) :=
  ⟨by norm_num, by norm_num, by norm_num,
    block_extent_round_trip 18446744073709551615 7 (by norm_num) (by norm_num) (by norm_num)⟩

/-! ## Classification predicates: properties -/

/-- C3 (counterexample): it is not the case that every entry has exactly one of
`is_write, is_sync_point, is_discard, is_writesame` true: with `sync_point` and
`discard` both set, two of them are. -/
theorem exactly_one_kind_fails :
    ¬ (∀ e : WriteLogPmemEntry, countTrue (classification e) = 1) := by
  intro h
  have h2 := h entry_sync_point_and_discard
  revert h2
  decide

/-- C3 (amended): for every entry in which at most one of the `sync_point`,
`discard` and `writesame` flags is set, exactly one of
`is_write, is_sync_point, is_discard, is_writesame` is true. -/
theorem exactly_one_kind_of_flags (e : WriteLogPmemEntry) (h : kindFlagsSet e ≤ 1) :
    countTrue (classification e) = 1 := by
  obtain ⟨ev, sp, sq, hd, d, ws, n1, n2, n3, n4, n5, n6⟩ := e
  revert h
  cases sp <;> cases d <;> cases ws <;>
    simp [kindFlagsSet, countTrue, classification, WriteLogPmemEntry.is_write,
      WriteLogPmemEntry.is_sync_point, WriteLogPmemEntry.is_discard,
      WriteLogPmemEntry.is_writesame]

/-- Witness for `exactly_one_kind_of_flags` at a discard entry. -/
theorem exactly_one_kind_of_flags_witness :
    kindFlagsSet entry_discard_only ≤ 1 ∧ countTrue (classification entry_discard_only) = 1 :=
  ⟨by decide, exactly_one_kind_of_flags entry_discard_only (by decide)⟩

/-- C4: `is_sync_point`, `is_discard`, `is_writesame` return the `sync_point`,
`discard`, `writesame` flags, `is_write` holds exactly when none of the three
flags is set, and replacing `entry_valid`, `sequenced`, `has_data` and all six
numeric fields by arbitrary values changes none of the four results. -/
theorem classification_reads_flags (e : WriteLogPmemEntry)
    (ev sq hd : Bool) (n1 n2 n3 n4 n5 n6 : Nat) :
    e.is_sync_point = e.sync_point ∧ e.is_discard = e.discard
      ∧ e.is_writesame = e.writesame
      ∧ (e.is_write = true ↔
          (e.sync_point = false ∧ e.discard = false ∧ e.writesame = false))
      ∧ classification
          { e with entry_valid := ev, sequenced := sq, has_data := hd,
                   sync_gen_number := n1, write_sequence_number := n2,
                   image_offset_bytes := n3, write_bytes := n4,
                   ws_datalen := n5, entry_index := n6 }
        = classification e := by
  obtain ⟨ev0, sp, sq0, hd0, d, ws, m1, m2, m3, m4, m5, m6⟩ := e
  refine ⟨rfl, rfl, rfl, ?_, rfl⟩
  cases sp <;> cases d <;> cases ws <;>
    simp [WriteLogPmemEntry.is_write, WriteLogPmemEntry.is_sync_point,
      WriteLogPmemEntry.is_discard, WriteLogPmemEntry.is_writesame]

/-- C5: `is_writer` is true if and only if at least one of `is_write`,
`is_discard`, `is_writesame` is true. -/
theorem is_writer_iff (e : WriteLogPmemEntry) :
    e.is_writer = true ↔
      (e.is_write = true ∨ e.is_discard = true ∨ e.is_writesame = true) := by
  simp [WriteLogPmemEntry.is_writer, or_assoc]

/-! ## Extent summary: properties -/

/-- What one loop iteration does to `first_image_byte`. -/
theorem loop_body_first_image_byte (s : ExtentsSummary) (e : Extent) :
    (ExtentsSummary.loop_body s e).first_image_byte
      = if e.2 ≠ 0 ∧ e.1 < s.first_image_byte then e.1 else s.first_image_byte := by
  unfold ExtentsSummary.loop_body
  by_cases h0 : e.2 = 0
  · simp [h0]
  · by_cases h1 : e.1 < s.first_image_byte <;> simp only [h0, h1] <;> split_ifs <;> simp_all

/-- What one loop iteration does to `last_image_byte`. -/
theorem loop_body_last_image_byte (s : ExtentsSummary) (e : Extent) :
    (ExtentsSummary.loop_body s e).last_image_byte
      = if e.2 ≠ 0 ∧ s.last_image_byte < add64 e.1 e.2 then add64 e.1 e.2
        else s.last_image_byte := by
  unfold ExtentsSummary.loop_body
  by_cases h0 : e.2 = 0
  · simp [h0]
  · by_cases h1 : e.1 < s.first_image_byte <;> simp only [h0, h1] <;> split_ifs <;> simp_all

/-- What one loop iteration does to `total_bytes`. -/
theorem loop_body_total_bytes (s : ExtentsSummary) (e : Extent) :
    (ExtentsSummary.loop_body s e).total_bytes
      = if e.2 ≠ 0 then add64 s.total_bytes e.2 else s.total_bytes := by
  unfold ExtentsSummary.loop_body
  by_cases h0 : e.2 = 0
  · simp [h0]
  · by_cases h1 : e.1 < s.first_image_byte <;> simp only [h0, h1] <;> split_ifs <;> simp_all

/-- Dropping a zero length element leaves the non-zero elements unchanged. -/
theorem nonzero_extents_cons_zero (e : Extent) (l : List Extent) (h : e.2 = 0) :
    nonzero_extents (e :: l) = nonzero_extents l := by
  simp [nonzero_extents, h]

/-- A leading element of non-zero length is kept. -/
theorem nonzero_extents_cons_pos (e : Extent) (l : List Extent) (h : e.2 ≠ 0) :
    nonzero_extents (e :: l) = e :: nonzero_extents l := by
  simp [nonzero_extents, h]

/-- Loop invariant for `first_image_byte`: after the loop it is the minimum of its
value before the loop and the offsets of the non-zero length elements. -/
theorem foldl_first_image_byte (l : List Extent) (s : ExtentsSummary) :
    IsMinOf (l.foldl ExtentsSummary.loop_body s).first_image_byte
      (s.first_image_byte :: nonzero_offsets l) := by
  induction l generalizing s with
  | nil => simp [IsMinOf, nonzero_offsets, nonzero_extents]
  | cons e t ih =>
    have h := ih (ExtentsSummary.loop_body s e)
    rw [loop_body_first_image_byte] at h
    simp only [List.foldl_cons]
    by_cases h0 : e.2 = 0
    · simpa [h0, nonzero_offsets, nonzero_extents_cons_zero] using h
    · obtain ⟨hmem, hle⟩ := h
      simp only [nonzero_offsets, nonzero_extents_cons_pos e t h0, List.map_cons]
      simp only [nonzero_offsets, List.mem_cons, forall_eq_or_imp] at hmem hle
      simp only [IsMinOf, List.mem_cons, forall_eq_or_imp]
      by_cases h1 : e.1 < s.first_image_byte
      · simp only [h0, h1, ne_eq, not_false_eq_true, and_self, if_true] at hmem hle
        refine ⟨?_, by omega, hle.1, hle.2⟩
        rcases hmem with hm | hm
        · exact Or.inr (Or.inl hm)
        · exact Or.inr (Or.inr hm)
      · simp only [h1, and_false, if_false] at hmem hle
        refine ⟨?_, hle.1, by omega, hle.2⟩
        rcases hmem with hm | hm
        · exact Or.inl hm
        · exact Or.inr (Or.inr hm)

/-- Loop invariant for `last_image_byte`: after the loop it is the maximum of its
value before the loop and the ends of the non-zero length elements. -/
theorem foldl_last_image_byte (l : List Extent) (s : ExtentsSummary) :
    IsMaxOf (l.foldl ExtentsSummary.loop_body s).last_image_byte
      (s.last_image_byte :: nonzero_ends l) := by
  induction l generalizing s with
  | nil => simp [IsMaxOf, nonzero_ends, nonzero_extents]
  | cons e t ih =>
    have h := ih (ExtentsSummary.loop_body s e)
    rw [loop_body_last_image_byte] at h
    simp only [List.foldl_cons]
    by_cases h0 : e.2 = 0
    · simpa [h0, nonzero_ends, nonzero_extents_cons_zero] using h
    · obtain ⟨hmem, hle⟩ := h
      simp only [nonzero_ends, nonzero_extents_cons_pos e t h0, List.map_cons]
      simp only [nonzero_ends, List.mem_cons, forall_eq_or_imp] at hmem hle
      simp only [IsMaxOf, List.mem_cons, forall_eq_or_imp]
      by_cases h1 : s.last_image_byte < add64 e.1 e.2
      · simp only [h0, h1, ne_eq, not_false_eq_true, and_self, if_true] at hmem hle
        refine ⟨?_, by omega, hle.1, hle.2⟩
        rcases hmem with hm | hm
        · exact Or.inr (Or.inl hm)
        · exact Or.inr (Or.inr hm)
      · simp only [h1, and_false, if_false] at hmem hle
        refine ⟨?_, hle.1, by omega, hle.2⟩
        rcases hmem with hm | hm
        · exact Or.inl hm
        · exact Or.inr (Or.inr hm)

/-- Loop invariant for `total_bytes`: after the loop it is its value before the
loop plus the lengths of all elements, modulo `2 ^ 64`. -/
theorem foldl_total_bytes (l : List Extent) (s : ExtentsSummary)
    (hs : s.total_bytes < UINT64_MOD) :
    (l.foldl ExtentsSummary.loop_body s).total_bytes
      = (s.total_bytes + (l.map (fun e => e.2)).sum) % UINT64_MOD := by
  induction l generalizing s with
  | nil => simp [Nat.mod_eq_of_lt hs]
  | cons e t ih =>
    simp only [List.foldl_cons, List.map_cons, List.sum_cons]
    have hlt : (ExtentsSummary.loop_body s e).total_bytes < UINT64_MOD := by
      rw [loop_body_total_bytes]
      split_ifs
      · exact Nat.mod_lt _ (by decide)
      · exact hs
    rw [ih _ hlt, loop_body_total_bytes]
    by_cases h0 : e.2 = 0
    · simp [h0]
    · simp only [h0, ne_eq, not_false_eq_true, if_true, add64]
      rw [Nat.add_mod, Nat.mod_mod, ← Nat.add_mod, Nat.add_assoc]

/-- Zero length elements contribute nothing to the sum of the lengths. -/
theorem sum_lengths_nonzero (l : List Extent) :
    ((nonzero_extents l).map (fun e => e.2)).sum = (l.map (fun e => e.2)).sum := by
  induction l with
  | nil => simp [nonzero_extents]
  | cons e t ih =>
    by_cases h0 : e.2 = 0
    · simp [nonzero_extents_cons_zero e t h0, h0, ih]
    · simp [nonzero_extents_cons_pos e t h0, ih]

/-- The constructor on a non-empty sequence is the loop run from the state seeded
by the first element. -/
theorem ExtentsSummary_cons (front : Extent) (rest : List Extent) :
    ExtentsSummary.ExtentsSummary (front :: rest)
      = (front :: rest).foldl ExtentsSummary.loop_body
          { total_bytes := 0, first_image_byte := front.1,
            last_image_byte := add64 front.1 front.2 } := rfl

/-- When the first element has non-zero length, `first_image_byte` is the minimum
offset among the non-zero length elements. -/
theorem first_image_byte_of_front_nonzero (front : Extent) (rest : List Extent)
    (h : front.2 ≠ 0) :
    IsMinOf (ExtentsSummary.ExtentsSummary (front :: rest)).first_image_byte
      (nonzero_offsets (front :: rest)) := by
  have hm := foldl_first_image_byte (front :: rest)
    { total_bytes := 0, first_image_byte := front.1,
      last_image_byte := add64 front.1 front.2 }
  rw [← ExtentsSummary_cons] at hm
  simp only [nonzero_offsets, nonzero_extents_cons_pos front rest h, List.map_cons] at hm ⊢
  obtain ⟨hmem, hle⟩ := hm
  refine ⟨?_, fun x hx => hle x (List.mem_cons_of_mem _ hx)⟩
  rcases List.mem_cons.1 hmem with h1 | h1
  · rw [h1]; exact List.mem_cons_self _ _
  · exact h1

/-- When the first element has non-zero length, `last_image_byte` is the maximum
end among the non-zero length elements. -/
theorem last_image_byte_of_front_nonzero (front : Extent) (rest : List Extent)
    (h : front.2 ≠ 0) :
    IsMaxOf (ExtentsSummary.ExtentsSummary (front :: rest)).last_image_byte
      (nonzero_ends (front :: rest)) := by
  have hm := foldl_last_image_byte (front :: rest)
    { total_bytes := 0, first_image_byte := front.1,
      last_image_byte := add64 front.1 front.2 }
  rw [← ExtentsSummary_cons] at hm
  simp only [nonzero_ends, nonzero_extents_cons_pos front rest h, List.map_cons] at hm ⊢
  obtain ⟨hmem, hle⟩ := hm
  refine ⟨?_, fun x hx => hle x (List.mem_cons_of_mem _ hx)⟩
  rcases List.mem_cons.1 hmem with h1 | h1
  · rw [h1]; exact List.mem_cons_self _ _
  · exact h1

/-- C6: on a non-empty sequence the constructor yields as `first_image_byte` the
minimum of the offset of the first element and the offsets of the non-zero
length elements, and as `last_image_byte` the maximum of the end
`offset + length` of the first element and the ends of the non-zero length
elements, all sums in 64-bit unsigned arithmetic; `[(5,10),(0,3)]` gives
`13, 0, 15` and `[(10,5),(20,10)]` gives `15, 10, 30`. -/
theorem ExtentsSummary_seeded_range (front : Extent) (rest : List Extent) :
    IsMinOf (ExtentsSummary.ExtentsSummary (front :: rest)).first_image_byte
        (front.1 :: nonzero_offsets (front :: rest))
      ∧ IsMaxOf (ExtentsSummary.ExtentsSummary (front :: rest)).last_image_byte
        (add64 front.1 front.2 :: nonzero_ends (front :: rest))
      ∧ ExtentsSummary.ExtentsSummary [(5, 10), (0, 3)]
          = { total_bytes := 13, first_image_byte := 0, last_image_byte := 15 }
      ∧ ExtentsSummary.ExtentsSummary [(10, 5), (20, 10)]
          = { total_bytes := 15, first_image_byte := 10, last_image_byte := 30 } := by
  refine ⟨?_, ?_, by decide, by decide⟩
  · rw [ExtentsSummary_cons]
    exact foldl_first_image_byte (front :: rest) _
  · rw [ExtentsSummary_cons]
    exact foldl_last_image_byte (front :: rest) _

/-- C7: for every sequence, `total_bytes` is the sum of the lengths of the
non-zero length elements, which is the sum of the lengths of all elements,
modulo `2 ^ 64`; duplicate and overlapping extents are counted each time they
occur. -/
theorem ExtentsSummary_total_bytes (extents : List Extent) :
    (ExtentsSummary.ExtentsSummary extents).total_bytes
        = ((nonzero_extents extents).map (fun e => e.2)).sum % 2 ^ 64
      ∧ (ExtentsSummary.ExtentsSummary extents).total_bytes
        = (extents.map (fun e => e.2)).sum % 2 ^ 64
      ∧ (ExtentsSummary.ExtentsSummary [(10, 5), (10, 5), (12, 5)]).total_bytes = 15 := by
  have hall : (ExtentsSummary.ExtentsSummary extents).total_bytes
      = (extents.map (fun e => e.2)).sum % 2 ^ 64 := by
    cases extents with
    | nil => simp [ExtentsSummary.ExtentsSummary]
    | cons front rest =>
      rw [ExtentsSummary_cons, foldl_total_bytes _ _ (by show 0 < UINT64_MOD; decide)]
      simp [UINT64_MOD]
  exact ⟨by rw [sum_lengths_nonzero]; exact hall, hall, by decide⟩

/-- All sequences seen by the loop with only zero length elements leave the state
as it was. -/
theorem foldl_all_zero (l : List Extent) (s : ExtentsSummary)
    (h : ∀ e ∈ l, e.2 = 0) : l.foldl ExtentsSummary.loop_body s = s := by
  induction l generalizing s with
  | nil => rfl
  | cons e t ih =>
    have he : e.2 = 0 := h e (List.mem_cons_self _ _)
    have hstep : ExtentsSummary.loop_body s e = s := by
      simp [ExtentsSummary.loop_body, he]
    rw [List.foldl_cons, hstep]
    exact ih s (fun x hx => h x (List.mem_cons_of_mem _ hx))

/-- C11: the summary of the empty sequence has `total_bytes = 0`,
`first_image_byte = 0` and `last_image_byte = 0`. -/
theorem ExtentsSummary_empty :
    ExtentsSummary.ExtentsSummary []
      = { total_bytes := 0, first_image_byte := 0, last_image_byte := 0 } := rfl

/-- C12: for a non-empty sequence of 64-bit pairs in which every element has
length `0`, the summary has `total_bytes = 0` and
`first_image_byte = last_image_byte =` the offset of the first element; in
particular `[(100,0)]` gives `0, 100, 100`. -/
theorem ExtentsSummary_all_zero_length (front : Extent) (rest : List Extent)
    (hoff : front.1 < 2 ^ 64) (hzero : ∀ e ∈ front :: rest, e.2 = 0) :
    ExtentsSummary.ExtentsSummary (front :: rest)
        = { total_bytes := 0, first_image_byte := front.1, last_image_byte := front.1 }
      ∧ ExtentsSummary.ExtentsSummary [(100, 0)]
        = { total_bytes := 0, first_image_byte := 100, last_image_byte := 100 } := by
  refine ⟨?_, by decide⟩
  have hf : front.2 = 0 := hzero front (List.mem_cons_self _ _)
  norm_num at hoff
  rw [ExtentsSummary_cons, foldl_all_zero _ _ hzero, hf]
  simp [add64, UINT64_MOD, Nat.mod_eq_of_lt hoff]

/-- Witness for `ExtentsSummary_all_zero_length` at `[(100,0),(7,0)]`. -/
theorem ExtentsSummary_all_zero_length_witness :
    ExtentsSummary.ExtentsSummary [(100, 0), (7, 0)]
      = { total_bytes := 0, first_image_byte := 100, last_image_byte := 100 } :=
  (ExtentsSummary_all_zero_length (100, 0) [(7, 0)] (by norm_num) (by decide)).1

/-! ## Extent conversion: further properties -/

/-- C13 (counterexample): with offset `2 ^ 64 - 1` and length `2`, both 64-bit and
the length at least `1`, the sum wraps and the block extent has
`last_block = 0`, below `first_block`. -/
theorem block_extent_order_fails :
    ¬ (∀ offset_bytes length_bytes : Nat, offset_bytes < 2 ^ 64 → length_bytes < 2 ^ 64 →
        1 ≤ length_bytes →
        (block_extent offset_bytes length_bytes).first_block
          ≤ (block_extent offset_bytes length_bytes).last_block) := by
  intro h
  have h2 := h 18446744073709551615 2 (by norm_num) (by norm_num) (by norm_num)
  revert h2
  decide

/-- C13 (amended): for every offset and every length at least `1` whose last byte
`offset + length - 1` does not exceed `2 ^ 64 - 1`, the block extent satisfies
`first_block <= last_block`. -/
theorem block_extent_ordered (offset_bytes length_bytes : Nat) (hlen : 1 ≤ length_bytes)
    (hfit : offset_bytes + length_bytes - 1 < 2 ^ 64) :
    (block_extent offset_bytes length_bytes).first_block
      ≤ (block_extent offset_bytes length_bytes).last_block := by
  norm_num at hfit
  simp only [block_extent]
  unfold sub64 add64 UINT64_MOD
  omega

/-- Witness for `block_extent_ordered` at offset `4096`, length `512`. -/
theorem block_extent_ordered_witness :
    1 ≤ 512 ∧ 4096 + 512 - 1 < 2 ^ 64
      ∧ (block_extent 4096 512).first_block ≤ (block_extent 4096 512).last_block :=
  ⟨by decide, by norm_num, block_extent_ordered 4096 512 (by decide) (by norm_num)⟩

/-- C14: the member `block_extent` of an entry is the free function applied to
`get_offset_bytes` and `get_write_bytes`, which return the fields
`image_offset_bytes` and `write_bytes` unchanged; replacing every other field
by arbitrary values does not change the result. -/
theorem entry_block_extent_spec (e : WriteLogPmemEntry)
    (ev sp sq hd d ws : Bool) (n1 n2 n5 n6 : Nat) :
    e.block_extent = block_extent e.get_offset_bytes e.get_write_bytes
      ∧ e.get_offset_bytes = e.image_offset_bytes
      ∧ e.get_write_bytes = e.write_bytes
      ∧ WriteLogPmemEntry.block_extent
          { e with entry_valid := ev, sync_point := sp, sequenced := sq, has_data := hd,
                   discard := d, writesame := ws, sync_gen_number := n1,
                   write_sequence_number := n2, ws_datalen := n5, entry_index := n6 }
        = e.block_extent :=
  ⟨rfl, rfl, rfl, rfl⟩

/-- C16: for every 64-bit offset, `block_extent offset 0` is returned (nothing is
rejected) with first component `offset` and last component
`(offset - 1) mod 2 ^ 64`: that is `2 ^ 64 - 1` when the offset is `0`, and
`offset - 1`, below the first component, when the offset is at least `1`. -/
theorem block_extent_zero_length (offset_bytes : Nat) (hoff : offset_bytes < 2 ^ 64) :
    block_extent offset_bytes 0
        = BlockExtent.mk offset_bytes ((offset_bytes + 2 ^ 64 - 1) % 2 ^ 64)
      ∧ (offset_bytes = 0 → (block_extent offset_bytes 0).last_block = 2 ^ 64 - 1)
      ∧ (1 ≤ offset_bytes →
          (block_extent offset_bytes 0).last_block = offset_bytes - 1
            ∧ (block_extent offset_bytes 0).last_block
                < (block_extent offset_bytes 0).first_block) := by
  norm_num at hoff
  have key : sub64 (add64 offset_bytes 0) 1
      = (offset_bytes + 18446744073709551616 - 1) % 18446744073709551616 := by
    unfold sub64 add64 UINT64_MOD
    omega
  simp only [block_extent, key]
  norm_num
  constructor
  · intro h0
    subst h0
    norm_num
  · intro h1
    omega

/-- Witness for `block_extent_zero_length` at offsets `0` and `4096`. -/
theorem block_extent_zero_length_witness :
    (block_extent 0 0).last_block = 2 ^ 64 - 1
      ∧ (block_extent 4096 0).last_block = 4096 - 1
      ∧ (block_extent 4096 0).last_block < (block_extent 4096 0).first_block :=
  ⟨(block_extent_zero_length 0 (by norm_num)).2.1 rfl,
    (block_extent_zero_length 4096 (by norm_num)).2.2 (by norm_num)⟩

/-! ## Deferred completion queue: properties -/

/-- Completing a list of actions appends one invocation per action, in order, to
the log. -/
theorem finish_contexts_log (cct : Option Nat) (finished : List Context) (result : Int)
    (log : List Invocation) :
    finish_contexts cct finished result log
      = log ++ finished.map (fun c => (c, result)) := by
  induction finished generalizing log with
  | nil => simp [finish_contexts]
  | cons c t ih =>
    have h := ih (complete log c result)
    simp only [finish_contexts, List.foldl_cons] at h ⊢
    rw [h]
    simp [complete]

/-- Adding a list of actions one by one appends them, in order, to the vector. -/
theorem foldl_add_contexts (actions : List Context) (q : DeferredContexts) :
    (actions.foldl DeferredContexts.add q).contexts = q.contexts ++ actions := by
  induction actions generalizing q with
  | nil => simp
  | cons a t ih =>
    rw [List.foldl_cons, ih]
    simp [DeferredContexts.add]

/-- C15: `add` puts the action at the tail of the vector and leaves the earlier
ones in place; after adding any finite sequence of actions to an empty queue
the vector holds exactly these actions in insertion order, and the destructor
invokes exactly them, one invocation per added action, in insertion order,
each with status code `0`; with no action added it invokes nothing. -/
theorem DeferredContexts_teardown (actions : List Context) (q : DeferredContexts)
    (ctx : Context) :
    (q.add ctx).contexts = q.contexts ++ [ctx]
      ∧ (actions.foldl DeferredContexts.add DeferredContexts.empty).contexts = actions
      ∧ (actions.foldl DeferredContexts.add DeferredContexts.empty).destructor
          = actions.map (fun a => (a, 0))
      ∧ ((actions.foldl DeferredContexts.add DeferredContexts.empty).destructor).length
          = actions.length
      ∧ DeferredContexts.empty.destructor = [] := by
  have hc : (actions.foldl DeferredContexts.add DeferredContexts.empty).contexts = actions := by
    rw [foldl_add_contexts]
    simp [DeferredContexts.empty]
  have hd : (actions.foldl DeferredContexts.add DeferredContexts.empty).destructor
      = actions.map (fun a => (a, 0)) := by
    simp [DeferredContexts.destructor, finish_contexts_log, hc]
  refine ⟨rfl, hc, hd, ?_, rfl⟩
  rw [hd, List.length_map]

/-! ## Classification predicates: further properties -/

/-- C18: `is_writer` is false if and only if the `sync_point` flag is set and the
`discard` and `writesame` flags are both clear. -/
theorem is_writer_false_iff (e : WriteLogPmemEntry) :
    e.is_writer = false ↔
      (e.sync_point = true ∧ e.discard = false ∧ e.writesame = false) := by
  obtain ⟨ev, sp, sq, hd, d, ws, n1, n2, n3, n4, n5, n6⟩ := e
  cases sp <;> cases d <;> cases ws <;>
    simp [WriteLogPmemEntry.is_writer, WriteLogPmemEntry.is_write,
      WriteLogPmemEntry.is_sync_point, WriteLogPmemEntry.is_discard,
      WriteLogPmemEntry.is_writesame]

/-- C19: for every entry at least one of
`is_write, is_sync_point, is_discard, is_writesame` is true, and exactly one of
them is true if and only if at most one of the `sync_point`, `discard` and
`writesame` flags is set. -/
theorem kind_count_characterised (e : WriteLogPmemEntry) :
    1 ≤ countTrue (classification e)
      ∧ (countTrue (classification e) = 1 ↔ kindFlagsSet e ≤ 1) := by
  obtain ⟨ev, sp, sq, hd, d, ws, n1, n2, n3, n4, n5, n6⟩ := e
  cases sp <;> cases d <;> cases ws <;>
    simp [kindFlagsSet, countTrue, classification, WriteLogPmemEntry.is_write,
      WriteLogPmemEntry.is_sync_point, WriteLogPmemEntry.is_discard,
      WriteLogPmemEntry.is_writesame]

/-! ## Extent summary: covering range and order independence -/

/-- C17: in a sequence in which no `offset + length` exceeds `2 ^ 64 - 1`, every
element of non-zero length satisfies `first_image_byte <= offset` and
`offset + length <= last_image_byte`, so every byte it addresses lies between
`first_image_byte` and `last_image_byte` inclusive. -/
theorem ExtentsSummary_covers (extents : List Extent)
    (hfit : ∀ x ∈ extents, x.1 + x.2 ≤ 2 ^ 64 - 1)
    (e : Extent) (he : e ∈ extents) (hlen : e.2 ≠ 0) :
    (ExtentsSummary.ExtentsSummary extents).first_image_byte ≤ e.1
      ∧ e.1 + e.2 ≤ (ExtentsSummary.ExtentsSummary extents).last_image_byte
      ∧ ∀ b : Nat, e.1 ≤ b → b < e.1 + e.2 →
          (ExtentsSummary.ExtentsSummary extents).first_image_byte ≤ b
            ∧ b ≤ (ExtentsSummary.ExtentsSummary extents).last_image_byte := by
  cases extents with
  | nil => cases he
  | cons front rest =>
    have hmin := (foldl_first_image_byte (front :: rest)
      { total_bytes := 0, first_image_byte := front.1,
        last_image_byte := add64 front.1 front.2 }).2
    have hmax := (foldl_last_image_byte (front :: rest)
      { total_bytes := 0, first_image_byte := front.1,
        last_image_byte := add64 front.1 front.2 }).2
    rw [← ExtentsSummary_cons] at hmin hmax
    have hin : e ∈ nonzero_extents (front :: rest) := by
      simp only [nonzero_extents, List.mem_filter]
      exact ⟨he, by simpa using hlen⟩
    have h1 : (ExtentsSummary.ExtentsSummary (front :: rest)).first_image_byte ≤ e.1 :=
      hmin e.1 (List.mem_cons_of_mem _ (List.mem_map_of_mem (fun x => x.1) hin))
    have h2 : add64 e.1 e.2
        ≤ (ExtentsSummary.ExtentsSummary (front :: rest)).last_image_byte :=
      hmax (add64 e.1 e.2)
        (List.mem_cons_of_mem _ (List.mem_map_of_mem (fun x => add64 x.1 x.2) hin))
    have hsum : add64 e.1 e.2 = e.1 + e.2 := by
      have := hfit e he
      norm_num at this
      unfold add64 UINT64_MOD
      omega
    rw [hsum] at h2
    refine ⟨h1, h2, fun b hb1 hb2 => ⟨by omega, by omega⟩⟩

/-- Witness for `ExtentsSummary_covers` at the element `(20,10)` of
`[(10,5),(7,0),(20,10)]`. -/
theorem ExtentsSummary_covers_witness :
    (ExtentsSummary.ExtentsSummary [(10, 5), (7, 0), (20, 10)]).first_image_byte ≤ 20
      ∧ 20 + 10 ≤ (ExtentsSummary.ExtentsSummary [(10, 5), (7, 0), (20, 10)]).last_image_byte :=
  have h := ExtentsSummary_covers [(10, 5), (7, 0), (20, 10)] (by decide) (20, 10)
    (by decide) (by decide)
  ⟨h.1, h.2.1⟩

/-- A sequence without zero length elements is its own list of non-zero length
elements. -/
theorem nonzero_extents_of_all_nonzero (l : List Extent) (h : ∀ e ∈ l, e.2 ≠ 0) :
    nonzero_extents l = l := by
  unfold nonzero_extents
  rw [List.filter_eq_self]
  intro e he
  simpa using h e he

/-- The minimum of a list is also the minimum of each of its permutations, so it
is unique. -/
theorem IsMinOf_perm_unique {m n : Nat} {l k : List Nat} (hm : IsMinOf m l)
    (hn : IsMinOf n k) (hp : k.Perm l) : n = m :=
  Nat.le_antisymm (hn.2 m (hp.mem_iff.2 hm.1)) (hm.2 n (hp.mem_iff.1 hn.1))

/-- The maximum of a list is also the maximum of each of its permutations, so it
is unique. -/
theorem IsMaxOf_perm_unique {m n : Nat} {l k : List Nat} (hm : IsMaxOf m l)
    (hn : IsMaxOf n k) (hp : k.Perm l) : n = m :=
  Nat.le_antisymm (hm.2 n (hp.mem_iff.1 hn.1)) (hn.2 m (hp.mem_iff.2 hm.1))

/-- The `total_bytes` of a summary is the sum of all lengths modulo `2 ^ 64`. -/
theorem total_bytes_eq_sum (l : List Extent) :
    (ExtentsSummary.ExtentsSummary l).total_bytes
      = (l.map (fun e => e.2)).sum % UINT64_MOD := by
  cases l with
  | nil => simp [ExtentsSummary.ExtentsSummary]
  | cons front rest =>
    rw [ExtentsSummary_cons, foldl_total_bytes _ _ (by show 0 < UINT64_MOD; decide)]
    simp

/-- Two summaries with the same three members are equal. -/
theorem ExtentsSummary_eq_of_members (a b : ExtentsSummary)
    (h1 : a.total_bytes = b.total_bytes) (h2 : a.first_image_byte = b.first_image_byte)
    (h3 : a.last_image_byte = b.last_image_byte) : a = b := by
  cases a
  cases b
  simp_all

/-- On a non-empty sequence without zero length elements, `first_image_byte` is
the minimum offset and `last_image_byte` the maximum end over all elements. -/
theorem range_of_all_nonzero (l : List Extent) (hne : l ≠ []) (h : ∀ e ∈ l, e.2 ≠ 0) :
    IsMinOf (ExtentsSummary.ExtentsSummary l).first_image_byte (l.map (fun e => e.1))
      ∧ IsMaxOf (ExtentsSummary.ExtentsSummary l).last_image_byte
          (l.map (fun e => add64 e.1 e.2)) := by
  cases l with
  | nil => exact absurd rfl hne
  | cons front rest =>
    have hf : front.2 ≠ 0 := h front (List.mem_cons_self _ _)
    have h1 := first_image_byte_of_front_nonzero front rest hf
    have h2 := last_image_byte_of_front_nonzero front rest hf
    rw [nonzero_offsets, nonzero_extents_of_all_nonzero _ h] at h1
    rw [nonzero_ends, nonzero_extents_of_all_nonzero _ h] at h2
    exact ⟨h1, h2⟩

/-- C20: for every sequence in which every element has non-zero length and every
permutation of it, the summary of the permutation equals the summary of the
original in `total_bytes`, `first_image_byte` and `last_image_byte`; when the
sequence is not empty, `first_image_byte` is the minimum offset and
`last_image_byte` the maximum `offset + length` (64-bit unsigned) over all
elements. -/
theorem ExtentsSummary_perm_of_nonzero (extents permuted : List Extent)
    (hnz : ∀ e ∈ extents, e.2 ≠ 0) (hperm : permuted.Perm extents) :
    ((ExtentsSummary.ExtentsSummary permuted).total_bytes
          = (ExtentsSummary.ExtentsSummary extents).total_bytes
        ∧ (ExtentsSummary.ExtentsSummary permuted).first_image_byte
          = (ExtentsSummary.ExtentsSummary extents).first_image_byte
        ∧ (ExtentsSummary.ExtentsSummary permuted).last_image_byte
          = (ExtentsSummary.ExtentsSummary extents).last_image_byte)
      ∧ ExtentsSummary.ExtentsSummary permuted = ExtentsSummary.ExtentsSummary extents
      ∧ (extents ≠ [] →
          IsMinOf (ExtentsSummary.ExtentsSummary extents).first_image_byte
              (extents.map (fun e => e.1))
            ∧ IsMaxOf (ExtentsSummary.ExtentsSummary extents).last_image_byte
              (extents.map (fun e => add64 e.1 e.2))) := by
  have hmembers : (ExtentsSummary.ExtentsSummary permuted).total_bytes
        = (ExtentsSummary.ExtentsSummary extents).total_bytes
      ∧ (ExtentsSummary.ExtentsSummary permuted).first_image_byte
        = (ExtentsSummary.ExtentsSummary extents).first_image_byte
      ∧ (ExtentsSummary.ExtentsSummary permuted).last_image_byte
        = (ExtentsSummary.ExtentsSummary extents).last_image_byte := by
    by_cases hne : extents = []
    · subst hne
      rw [hperm.eq_nil]
      exact ⟨rfl, rfl, rfl⟩
    · have hne2 : permuted ≠ [] := by
        intro h0
        subst h0
        exact hne hperm.symm.eq_nil
      have hnz2 : ∀ e ∈ permuted, e.2 ≠ 0 := fun e he => hnz e (hperm.mem_iff.1 he)
      have ha := range_of_all_nonzero extents hne hnz
      have hb := range_of_all_nonzero permuted hne2 hnz2
      refine ⟨?_, ?_, ?_⟩
      · rw [total_bytes_eq_sum, total_bytes_eq_sum, (hperm.map (fun e => e.2)).sum_eq]
      · exact IsMinOf_perm_unique ha.1 hb.1 (hperm.map (fun e => e.1))
      · exact IsMaxOf_perm_unique ha.2 hb.2 (hperm.map (fun e => add64 e.1 e.2))
  exact ⟨hmembers,
    ExtentsSummary_eq_of_members _ _ hmembers.1 hmembers.2.1 hmembers.2.2,
    fun hne => range_of_all_nonzero extents hne hnz⟩

/-- Witness for `ExtentsSummary_perm_of_nonzero` at `[(5,10),(0,3),(20,1)]` and its
permutation `[(0,3),(5,10),(20,1)]`. -/
theorem ExtentsSummary_perm_of_nonzero_witness :
    ExtentsSummary.ExtentsSummary [(0, 3), (5, 10), (20, 1)]
        = ExtentsSummary.ExtentsSummary [(5, 10), (0, 3), (20, 1)]
      ∧ IsMinOf (ExtentsSummary.ExtentsSummary [(5, 10), (0, 3), (20, 1)]).first_image_byte
          [5, 0, 20] :=
  have h := ExtentsSummary_perm_of_nonzero [(5, 10), (0, 3), (20, 1)]
    [(0, 3), (5, 10), (20, 1)] (by decide) (List.Perm.swap _ _ _)
  ⟨h.2.1, (h.2.2 (by decide)).1⟩

/-! ## Extent summary: zero length first elements -/

/-- C8 (counterexample): neither half of the claim holds for every sequence. In
`[(0,0),(5,3)]` there is an element of non-zero length, the minimum offset among
such elements is `5`, and `first_image_byte` is `0`; `[(100,0)]` has only zero
length elements and `first_image_byte` is `100`, not `0`. -/
theorem first_image_byte_claim_fails :
    ¬ (∀ extents : List Extent, nonzero_extents extents ≠ [] →
        IsMinOf (ExtentsSummary.ExtentsSummary extents).first_image_byte
          (nonzero_offsets extents))
      ∧ ¬ (∀ extents : List Extent, nonzero_extents extents = [] →
        (ExtentsSummary.ExtentsSummary extents).first_image_byte = 0) := by
  constructor
  · intro h
    have h2 := h [(0, 0), (5, 3)] (by decide)
    revert h2
    decide
  · intro h
    have h2 := h [(100, 0)] (by decide)
    revert h2
    decide

/-- C8 (amended): `first_image_byte` is `0` for the empty sequence; for a
non-empty sequence it is the minimum of the offset of the first element and
the offsets of the elements of non-zero length, hence the minimum offset among
the elements of non-zero length whenever the first element has non-zero
length, and the offset of the first element when every element has zero
length. -/
theorem first_image_byte_spec (front : Extent) (rest : List Extent) :
    (ExtentsSummary.ExtentsSummary []).first_image_byte = 0
      ∧ IsMinOf (ExtentsSummary.ExtentsSummary (front :: rest)).first_image_byte
          (front.1 :: nonzero_offsets (front :: rest))
      ∧ (front.2 ≠ 0 →
          IsMinOf (ExtentsSummary.ExtentsSummary (front :: rest)).first_image_byte
            (nonzero_offsets (front :: rest)))
      ∧ ((∀ e ∈ front :: rest, e.2 = 0) →
          (ExtentsSummary.ExtentsSummary (front :: rest)).first_image_byte = front.1) := by
  refine ⟨rfl, ?_, first_image_byte_of_front_nonzero front rest, ?_⟩
  · rw [ExtentsSummary_cons]
    exact foldl_first_image_byte (front :: rest) _
  · intro hzero
    rw [ExtentsSummary_cons, foldl_all_zero _ _ hzero]

/-- Witness for `first_image_byte_spec`: the first element of `[(5,10),(7,0),(0,3)]`
has non-zero length, and `[(100,0),(7,0)]` has only zero length elements. -/
theorem first_image_byte_spec_witness :
    IsMinOf (ExtentsSummary.ExtentsSummary [(5, 10), (7, 0), (0, 3)]).first_image_byte
        (nonzero_offsets [(5, 10), (7, 0), (0, 3)])
      ∧ (ExtentsSummary.ExtentsSummary [(100, 0), (7, 0)]).first_image_byte = 100 :=
  ⟨(first_image_byte_spec (5, 10) [(7, 0), (0, 3)]).2.2.1 (by decide),
    (first_image_byte_spec (100, 0) [(7, 0)]).2.2.2 (by decide)⟩

/-- C9 (counterexample): `[(100,0),(5,3)]` contains an element of non-zero length,
the maximum of `offset + length` over such elements is `8`, and
`last_image_byte` is `100`. -/
theorem last_image_byte_claim_fails :
    ¬ (∀ extents : List Extent, (∃ e ∈ extents, e.2 ≠ 0) →
        IsMaxOf (ExtentsSummary.ExtentsSummary extents).last_image_byte
          (nonzero_ends extents)) := by
  intro h
  have h2 := h [(100, 0), (5, 3)] ⟨(5, 3), by decide, by decide⟩
  revert h2
  decide

/-- C9 (amended): for a non-empty sequence `last_image_byte` is the maximum of the
end `offset + length` of the first element and the ends of the elements of
non-zero length, hence the maximum of `offset + length` over the elements of
non-zero length whenever the first element has non-zero length; all sums are
64-bit unsigned. -/
theorem last_image_byte_spec (front : Extent) (rest : List Extent) :
    IsMaxOf (ExtentsSummary.ExtentsSummary (front :: rest)).last_image_byte
        (add64 front.1 front.2 :: nonzero_ends (front :: rest))
      ∧ (front.2 ≠ 0 →
          IsMaxOf (ExtentsSummary.ExtentsSummary (front :: rest)).last_image_byte
            (nonzero_ends (front :: rest))) := by
  refine ⟨?_, last_image_byte_of_front_nonzero front rest⟩
  rw [ExtentsSummary_cons]
  exact foldl_last_image_byte (front :: rest) _

/-- Witness for `last_image_byte_spec` at `[(5,3),(100,0),(20,10)]`, whose first
element has non-zero length. -/
theorem last_image_byte_spec_witness :
    IsMaxOf (ExtentsSummary.ExtentsSummary [(5, 3), (100, 0), (20, 10)]).last_image_byte
      (nonzero_ends [(5, 3), (100, 0), (20, 10)]) :=
  (last_image_byte_spec (5, 3) [(100, 0), (20, 10)]).2 (by decide)

/-- The summaries of two non-empty sequences that are permutations of each other
and both start with an element of non-zero length have the same members. -/
theorem summary_perm_of_fronts_nonzero (front front2 : Extent) (rest rest2 : List Extent)
    (hperm : (front2 :: rest2).Perm (front :: rest))
    (h1 : front.2 ≠ 0) (h2 : front2.2 ≠ 0) :
    ExtentsSummary.ExtentsSummary (front2 :: rest2)
      = ExtentsSummary.ExtentsSummary (front :: rest) := by
  have hnz : (nonzero_extents (front2 :: rest2)).Perm (nonzero_extents (front :: rest)) :=
    hperm.filter _
  have hoff : (nonzero_offsets (front2 :: rest2)).Perm (nonzero_offsets (front :: rest)) :=
    hnz.map (fun e : Extent => e.1)
  have hend : (nonzero_ends (front2 :: rest2)).Perm (nonzero_ends (front :: rest)) :=
    hnz.map (fun e : Extent => add64 e.1 e.2)
  apply ExtentsSummary_eq_of_members
  · rw [total_bytes_eq_sum, total_bytes_eq_sum, (hperm.map (fun e => e.2)).sum_eq]
  · exact IsMinOf_perm_unique (first_image_byte_of_front_nonzero front rest h1)
      (first_image_byte_of_front_nonzero front2 rest2 h2) hoff
  · exact IsMaxOf_perm_unique (last_image_byte_of_front_nonzero front rest h1)
      (last_image_byte_of_front_nonzero front2 rest2 h2) hend

/-- C10 (counterexample): `[(5,3),(100,0)]` is a permutation of `[(100,0),(5,3)]`,
and the two summaries differ in `last_image_byte` (`8` against `100`), so the
three members are not the same for every sequence and every permutation. -/
theorem summary_order_independence_fails :
    ¬ (∀ extents permuted : List Extent, permuted.Perm extents →
        (ExtentsSummary.ExtentsSummary permuted).total_bytes
            = (ExtentsSummary.ExtentsSummary extents).total_bytes
          ∧ (ExtentsSummary.ExtentsSummary permuted).first_image_byte
            = (ExtentsSummary.ExtentsSummary extents).first_image_byte
          ∧ (ExtentsSummary.ExtentsSummary permuted).last_image_byte
            = (ExtentsSummary.ExtentsSummary extents).last_image_byte) := by
  intro h
  have h2 := h [(100, 0), (5, 3)] [(5, 3), (100, 0)] (List.Perm.swap _ _ _)
  revert h2
  decide

/-- C10 (amended): for every sequence and every permutation of it the two
summaries have the same `total_bytes`; they also have the same
`first_image_byte` and `last_image_byte` whenever neither the sequence nor the
permutation starts with an element of zero length, in particular whenever
every element has non-zero length. -/
theorem summary_order_independence (extents permuted : List Extent)
    (hperm : permuted.Perm extents) :
    (ExtentsSummary.ExtentsSummary permuted).total_bytes
        = (ExtentsSummary.ExtentsSummary extents).total_bytes
      ∧ ((∀ e, extents.head? = some e → e.2 ≠ 0) →
          (∀ e, permuted.head? = some e → e.2 ≠ 0) →
          (ExtentsSummary.ExtentsSummary permuted).first_image_byte
              = (ExtentsSummary.ExtentsSummary extents).first_image_byte
            ∧ (ExtentsSummary.ExtentsSummary permuted).last_image_byte
              = (ExtentsSummary.ExtentsSummary extents).last_image_byte)
      ∧ ((∀ e ∈ extents, e.2 ≠ 0) →
          (ExtentsSummary.ExtentsSummary permuted).first_image_byte
              = (ExtentsSummary.ExtentsSummary extents).first_image_byte
            ∧ (ExtentsSummary.ExtentsSummary permuted).last_image_byte
              = (ExtentsSummary.ExtentsSummary extents).last_image_byte) := by
  have hfronts : (∀ e, extents.head? = some e → e.2 ≠ 0) →
      (∀ e, permuted.head? = some e → e.2 ≠ 0) →
      (ExtentsSummary.ExtentsSummary permuted).first_image_byte
          = (ExtentsSummary.ExtentsSummary extents).first_image_byte
        ∧ (ExtentsSummary.ExtentsSummary permuted).last_image_byte
          = (ExtentsSummary.ExtentsSummary extents).last_image_byte := by
    intro h1 h2
    cases extents with
    | nil =>
      rw [hperm.eq_nil]
      exact ⟨rfl, rfl⟩
    | cons front rest =>
      cases permuted with
      | nil => exact absurd hperm.symm.eq_nil (List.cons_ne_nil _ _)
      | cons front2 rest2 =>
        rw [summary_perm_of_fronts_nonzero front front2 rest rest2 hperm
          (h1 front rfl) (h2 front2 rfl)]
        exact ⟨rfl, rfl⟩
  refine ⟨?_, hfronts, ?_⟩
  · rw [total_bytes_eq_sum, total_bytes_eq_sum, (hperm.map (fun e => e.2)).sum_eq]
  · intro hall
    apply hfronts
    · intro e he
      exact hall e (List.mem_of_mem_head? he)
    · intro e he
      exact hall e (hperm.mem_iff.1 (List.mem_of_mem_head? he))

/-- Witness for `summary_order_independence` at `[(5,10),(7,0),(0,3)]` and its
permutation `[(0,3),(7,0),(5,10)]`: both start with an element of non-zero
length and hold a zero length element further on. -/
theorem summary_order_independence_witness :
    (ExtentsSummary.ExtentsSummary [(0, 3), (7, 0), (5, 10)]).total_bytes
        = (ExtentsSummary.ExtentsSummary [(5, 10), (7, 0), (0, 3)]).total_bytes
      ∧ (ExtentsSummary.ExtentsSummary [(0, 3), (7, 0), (5, 10)]).first_image_byte
        = (ExtentsSummary.ExtentsSummary [(5, 10), (7, 0), (0, 3)]).first_image_byte
      ∧ (ExtentsSummary.ExtentsSummary [(0, 3), (7, 0), (5, 10)]).last_image_byte
        = (ExtentsSummary.ExtentsSummary [(5, 10), (7, 0), (0, 3)]).last_image_byte :=
  have hp : List.Perm ([(0, 3), (7, 0), (5, 10)] : List Extent) [(5, 10), (7, 0), (0, 3)] := by
    decide
  have h := summary_order_independence [(5, 10), (7, 0), (0, 3)] [(0, 3), (7, 0), (5, 10)] hp
  have hf := h.2.1 (by simp) (by simp)
  ⟨h.1, hf.1, hf.2⟩

end librbd.cache.rwl
